import Mathlib

/-!
Shallow embedding of the Universal-Search-Engine (src/main.cpp): an
inverted index built on a fixed-capacity chained hash table.  Pure model:
the global `HashTable` array becomes a function from bucket index to the
bucket's chain of word nodes; file I/O in `LoadFileAndIndex` becomes an
`Option (List String)` argument holding the source's lines (`none` when
`fopen` fails); the warning `printf` on a missing file becomes the second
component of the returned pair.  All text handled by the program is ASCII,
so C `char` arithmetic is modelled on `Char.toNat` and C `tolower` by
`Char.toLower` (which lowercases exactly the ASCII range).
-/

/-- TABLE_SIZE from main.cpp line 12: fixed hash-table capacity. -/
def TABLE_SIZE : Nat := 1007

/-- MAX_WORD_LEN from main.cpp line 13: size of the fixed word buffers. -/
def MAX_WORD_LEN : Nat := 50

/-- MAX_LINE_LEN from main.cpp line 14: size of the line buffer read by
`fgets`. -/
def MAX_LINE_LEN : Nat := 1024

/-- Modulus of C `unsigned int` arithmetic (32-bit). -/
def UINT_MOD : Nat := 2 ^ 32

/-- DocNode (main.cpp lines 19-24): one posting, recording in which document
a word occurred and how many times. -/
structure DocNode where
  doc_id : Int
  doc_name : String
  frequency : Nat
deriving DecidableEq, Repr

/-- WordNode (main.cpp lines 27-31): a hash-table slot holding a term and
its posting list; chains resolve hash collisions. -/
structure WordNode where
  word : String
  doc_list : List DocNode
deriving DecidableEq, Repr

/-- The global hash table `WordNode* HashTable[TABLE_SIZE]` (main.cpp
line 34), modelled as a map from bucket index to the bucket's chain. -/
def Index : Type := Nat → List WordNode

/-- The table after main's initialization loop (main.cpp line 173): every
bucket NULL. -/
def emptyIndex : Index := fun _ => []

/-- HashFunction (main.cpp lines 39-46): BKDR polynomial rolling hash with
seed 131 in `unsigned int` arithmetic, reduced mod TABLE_SIZE. -/
def HashFunction (s : String) : Nat :=
  (s.data.foldl (fun h c => (h * 131 + c.toNat) % UINT_MOD) 0) % TABLE_SIZE

/-- ToLowerCase (main.cpp lines 49-56): copy the string, lowercasing each
character (C `tolower`, ASCII). -/
def ToLowerCase (s : String) : String :=
  String.mk (s.data.map Char.toLower)

/-- Buffer cells of `dest` written by `ToLowerCase(dest, src)`: one per
source character, plus the terminating NUL at index `src.length`
(main.cpp lines 49-56; the loop has no bound check against the size of
`dest`). -/
def toLowerWriteIndices (src : String) : List Nat :=
  List.range (src.length + 1)

/-- Step 3 of InsertIndex (main.cpp lines 88-95): scan the posting list for
`doc_id`; if found, increment that posting's frequency in place and report
success, else report `none`. -/
def bumpFreq (doc_id : Int) : List DocNode → Option (List DocNode)
  | [] => none
  | d :: ds =>
    if d.doc_id = doc_id then
      some ({ d with frequency := d.frequency + 1 } :: ds)
    else
      (bumpFreq doc_id ds).map (fun r => d :: r)

/-- Steps 3-4 of InsertIndex (main.cpp lines 88-104): bump the posting for
`doc_id`, or prepend a fresh posting with count 1.  `okDoc` is the outcome
of the `malloc` at line 98: when it fails the C code `return`s, leaving the
list unchanged. -/
def recordOccurrenceAlloc (okDoc : Bool) (ds : List DocNode) (doc_id : Int)
    (doc_name : String) : List DocNode :=
  match bumpFreq doc_id ds with
  | some r => r
  | none => if okDoc then { doc_id := doc_id, doc_name := doc_name, frequency := 1 } :: ds else ds

/-- Chain scan of InsertIndex step 1 (main.cpp lines 70-75): find the first
node of the chain whose word equals `w` and apply `f` to its posting list
in place; `none` when no node matches. -/
def updateFirstWord (w : String) (f : List DocNode → List DocNode) :
    List WordNode → Option (List WordNode)
  | [] => none
  | n :: ns =>
    if n.word = w then
      some ({ n with doc_list := f n.doc_list } :: ns)
    else
      (updateFirstWord w f ns).map (fun r => n :: r)

/-- A store to one slot of the hash-table array (the assignment
`HashTable[idx] = p` of main.cpp line 84, or an in-place chain update). -/
def setBucket (idx : Index) (b : Nat) (ch : List WordNode) : Index :=
  fun i => if i = b then ch else idx i

/-- InsertIndex (main.cpp lines 59-105) with the outcomes of its two
`malloc` calls made explicit: `okWord` for the WordNode allocation
(line 79), `okDoc` for the DocNode allocation (line 98).  On either
failure the C function silently `return`s.  Note the C order of events:
a fresh WordNode is linked into the bucket (lines 81-84) *before* the
DocNode allocation is attempted, so `okWord = true, okDoc = false` leaves
a word node with an empty posting list in the table. -/
def InsertIndexAlloc (okWord okDoc : Bool) (idx : Index) (raw_word : String)
    (doc_id : Int) (doc_name : String) : Index :=
  let w := ToLowerCase raw_word
  if w.length = 0 then idx
  else
    let b := HashFunction w
    match updateFirstWord w (fun ds => recordOccurrenceAlloc okDoc ds doc_id doc_name) (idx b) with
    | some chain2 => setBucket idx b chain2
    | none =>
      if okWord then
        setBucket idx b
          ({ word := w, doc_list := recordOccurrenceAlloc okDoc [] doc_id doc_name } :: idx b)
      else idx

/-- InsertIndex (main.cpp lines 59-105) in the normal case where both
allocations succeed. -/
def InsertIndex (idx : Index) (raw_word : String) (doc_id : Int)
    (doc_name : String) : Index :=
  InsertIndexAlloc true true idx raw_word doc_id doc_name

/-- The delimiter set of `LoadFileAndIndex` (main.cpp line 118):
`" ,.?!\"\n\t\r[](){}"`. -/
def delimiters : List Char :=
  [' ', ',', '.', '?', '!', '"', '\n', '\t', '\r', '[', ']', '(', ')',
    Char.ofNat 123, Char.ofNat 125]

/-- Predicate version of membership in the strtok delimiter set. -/
def isDelim (c : Char) : Bool := delimiters.contains c

/-- The `strtok` loop of main.cpp lines 125-129: split a line at delimiter
characters into the maximal non-empty runs of non-delimiters. -/
def tokenize (line : String) : List String :=
  ((line.data.splitOnP isDelim).map String.mk).filter (fun t => !t.isEmpty)

/-- One iteration of the per-line loop of `LoadFileAndIndex` (main.cpp
lines 121-130): tokenize the line and insert every token. -/
def indexLine (doc_id : Int) (filename : String) (idx : Index) (line : String) : Index :=
  (tokenize line).foldl (fun i t => InsertIndex i t doc_id filename) idx

/-- LoadFileAndIndex (main.cpp lines 108-133).  `content` is the line
stream: `none` when `fopen` fails, in which case the function prints a
warning naming the file and returns without touching the table.  The
second component of the result collects the warning (the `printf` at
line 111). -/
def LoadFileAndIndex (idx : Index) (doc_id : Int) (filename : String)
    (content : Option (List String)) : Index × List String :=
  match content with
  | none => (idx, [filename])
  | some lines => (lines.foldl (indexLine doc_id filename) idx, [])

/-- One configured source of main's file list: id, display name, and its
line stream (`none` = unavailable). -/
structure Source where
  doc_id : Int
  name : String
  content : Option (List String)
deriving DecidableEq, Repr

/-- The ingestion loop of `main` (main.cpp lines 192-194): ingest every
configured source in order, unavailable ones included. -/
def ingestAll (idx : Index) (srcs : List Source) : Index :=
  srcs.foldl (fun i s => (LoadFileAndIndex i s.doc_id s.name s.content).1) idx

/-- Result of a query, as rendered by Search: either the found word's
posting list, or the not-found message. -/
inductive SearchResult where
  | Found (postings : List DocNode)
  | NotFound
deriving DecidableEq, Repr

/-- Bucket-chain lookup shared by Search and the model's observers: first
chain node whose word is `w` (the `strcmp` scan of main.cpp
lines 144-163). -/
def findNode (w : String) : List WordNode → Option WordNode
  | [] => none
  | n :: ns => if n.word = w then some n else findNode w ns

/-- Search (main.cpp lines 136-166): lowercase the query, hash it, scan the
bucket chain; print the found node's posting list, or the not-found
message. -/
def Search (idx : Index) (query : String) : SearchResult :=
  let w := ToLowerCase query
  match findNode w (idx (HashFunction w)) with
  | some n => SearchResult.Found n.doc_list
  | none => SearchResult.NotFound

/-- First posting for `doc_id` in a posting list (the scan of main.cpp
lines 88-95, as an observer). -/
def findDoc (doc_id : Int) : List DocNode → Option DocNode
  | [] => none
  | d :: ds => if d.doc_id = doc_id then some d else findDoc doc_id ds

/-- Frequency stored for `doc_id` in a posting list; 0 when absent. -/
def postFreq (ds : List DocNode) (doc_id : Int) : Nat :=
  match findDoc doc_id ds with
  | some d => d.frequency
  | none => 0

/-- Occurrence count the table stores for term `w` and source `doc_id`;
0 when the term or the posting is absent. -/
def freqOf (idx : Index) (w : String) (doc_id : Int) : Nat :=
  match findNode w (idx (HashFunction w)) with
  | some n => postFreq n.doc_list doc_id
  | none => 0

/-- All tokens of a source's lines, in order, after normalization. -/
def normTokens (lines : List String) : List String :=
  (lines.flatMap tokenize).map ToLowerCase

/-- Number of tokens of `lines` whose normalized form is `w`. -/
def countOcc (lines : List String) (w : String) : Nat :=
  (normTokens lines).count w

/-- All normalized tokens produced while ingesting a whole corpus
(unavailable sources produce none). -/
def corpusNormTokens (srcs : List Source) : List String :=
  srcs.flatMap (fun s =>
    match s.content with
    | none => []
    | some lines => normTokens lines)

/-- The structural invariant of the table: within every bucket chain no two
word nodes hold the same term string, and within every node's posting list
no two postings share a doc id. -/
def IndexInv (idx : Index) : Prop :=
  ∀ b, ((idx b).map WordNode.word).Nodup ∧
    ∀ n ∈ idx b, (n.doc_list.map DocNode.doc_id).Nodup

/-- The BKDR hash written as a polynomial: the value of
`∑ c_i * 131 ^ (n - 1 - i)` over the characters, in `unsigned int`
arithmetic.  Spec-side definition, to be compared with the Horner-scheme
loop of `HashFunction`. -/
def polyRollingHash : List Char → Nat
  | [] => 0
  | c :: cs => (c.toNat * 131 ^ cs.length + polyRollingHash cs) % UINT_MOD

/-! ### Basic lemmas about the chain and posting-list scans -/

theorem findNode_eq_none_iff (w : String) (ch : List WordNode) :
    findNode w ch = none ↔ w ∉ ch.map WordNode.word := by
  induction ch with
  | nil => simp [findNode]
  | cons n ns ih =>
    by_cases h : n.word = w <;> simp [findNode, h, ih] <;> tauto

theorem findDoc_eq_none_iff (i : Int) (ds : List DocNode) :
    findDoc i ds = none ↔ i ∉ ds.map DocNode.doc_id := by
  induction ds with
  | nil => simp [findDoc]
  | cons d ds ih =>
    by_cases h : d.doc_id = i <;> simp [findDoc, h, ih] <;> tauto

theorem updateFirstWord_eq_none (w : String) (f : List DocNode → List DocNode)
    (ch : List WordNode) : updateFirstWord w f ch = none ↔ findNode w ch = none := by
  induction ch with
  | nil => simp [updateFirstWord, findNode]
  | cons n ns ih =>
    by_cases h : n.word = w <;> simp [updateFirstWord, findNode, h, ih]

theorem findNode_updateFirstWord_self (w : String) (f : List DocNode → List DocNode)
    (ch ch2 : List WordNode) (he : updateFirstWord w f ch = some ch2) :
    findNode w ch2 = (findNode w ch).map (fun n => { n with doc_list := f n.doc_list }) := by
  induction ch generalizing ch2 with
  | nil => simp [updateFirstWord] at he
  | cons n ns ih =>
    by_cases h : n.word = w
    · simp only [updateFirstWord, if_pos h, Option.some.injEq] at he
      subst he
      simp [findNode, h]
    · simp only [updateFirstWord, if_neg h, Option.map_eq_some'] at he
      obtain ⟨r, hr, rfl⟩ := he
      simp [findNode, h, ih r hr]

theorem findNode_updateFirstWord_other (w w' : String) (f : List DocNode → List DocNode)
    (ch ch2 : List WordNode) (he : updateFirstWord w f ch = some ch2) (hw : w' ≠ w) :
    findNode w' ch2 = findNode w' ch := by
  induction ch generalizing ch2 with
  | nil => simp [updateFirstWord] at he
  | cons n ns ih =>
    by_cases h : n.word = w
    · simp only [updateFirstWord, if_pos h, Option.some.injEq] at he
      subst he
      have hne : n.word ≠ w' := by rw [h]; exact fun hc => hw hc.symm
      simp [findNode, hne]
    · simp only [updateFirstWord, if_neg h, Option.map_eq_some'] at he
      obtain ⟨r, hr, rfl⟩ := he
      by_cases h2 : n.word = w' <;> simp [findNode, h2, ih r hr]

theorem map_word_updateFirstWord (w : String) (f : List DocNode → List DocNode)
    (ch ch2 : List WordNode) (he : updateFirstWord w f ch = some ch2) :
    ch2.map WordNode.word = ch.map WordNode.word := by
  induction ch generalizing ch2 with
  | nil => simp [updateFirstWord] at he
  | cons n ns ih =>
    by_cases h : n.word = w
    · simp only [updateFirstWord, if_pos h, Option.some.injEq] at he
      subst he
      simp
    · simp only [updateFirstWord, if_neg h, Option.map_eq_some'] at he
      obtain ⟨r, hr, rfl⟩ := he
      simp [ih r hr]

theorem filter_updateFirstWord (w : String) (f : List DocNode → List DocNode)
    (ch ch2 : List WordNode) (he : updateFirstWord w f ch = some ch2) :
    ch2.filter (fun n => ! decide (n.word = w)) = ch.filter (fun n => ! decide (n.word = w)) := by
  induction ch generalizing ch2 with
  | nil => simp [updateFirstWord] at he
  | cons n ns ih =>
    by_cases h : n.word = w
    · simp only [updateFirstWord, if_pos h, Option.some.injEq] at he
      subst he
      simp [List.filter, h]
    · simp only [updateFirstWord, if_neg h, Option.map_eq_some'] at he
      obtain ⟨r, hr, rfl⟩ := he
      simp [List.filter_cons, h, ih r hr]

theorem doc_list_pred_updateFirstWord (w : String) (f : List DocNode → List DocNode)
    (P : List DocNode → Prop) (ch ch2 : List WordNode)
    (he : updateFirstWord w f ch = some ch2)
    (hch : ∀ n ∈ ch, P n.doc_list) (hf : ∀ ds, P ds → P (f ds)) :
    ∀ n ∈ ch2, P n.doc_list := by
  induction ch generalizing ch2 with
  | nil => simp [updateFirstWord] at he
  | cons a as ih =>
    by_cases h : a.word = w
    · simp only [updateFirstWord, if_pos h, Option.some.injEq] at he
      subst he
      intro m hm
      rcases List.mem_cons.mp hm with hm | hm
      · subst hm
        exact hf _ (hch a (List.mem_cons_self a as))
      · exact hch m (List.mem_cons_of_mem a hm)
    · simp only [updateFirstWord, if_neg h, Option.map_eq_some'] at he
      obtain ⟨r, hr, rfl⟩ := he
      intro m hm
      rcases List.mem_cons.mp hm with hm | hm
      · rw [hm]
        exact hch a (List.mem_cons_self a as)
      · exact ih r hr (fun x hx => hch x (List.mem_cons_of_mem a hx)) m hm

theorem bumpFreq_eq_none (i : Int) (ds : List DocNode) :
    bumpFreq i ds = none ↔ findDoc i ds = none := by
  induction ds with
  | nil => simp [bumpFreq, findDoc]
  | cons d ds ih =>
    by_cases h : d.doc_id = i <;> simp [bumpFreq, findDoc, h, ih]

theorem findDoc_bumpFreq_self (i : Int) (ds r : List DocNode)
    (he : bumpFreq i ds = some r) :
    findDoc i r = (findDoc i ds).map (fun d => { d with frequency := d.frequency + 1 }) := by
  induction ds generalizing r with
  | nil => simp [bumpFreq] at he
  | cons d ds ih =>
    by_cases h : d.doc_id = i
    · simp only [bumpFreq, if_pos h, Option.some.injEq] at he
      subst he
      simp [findDoc, h]
    · simp only [bumpFreq, if_neg h, Option.map_eq_some'] at he
      obtain ⟨r2, hr, rfl⟩ := he
      simp [findDoc, h, ih r2 hr]

theorem findDoc_bumpFreq_other (i j : Int) (ds r : List DocNode)
    (he : bumpFreq i ds = some r) (hij : j ≠ i) :
    findDoc j r = findDoc j ds := by
  induction ds generalizing r with
  | nil => simp [bumpFreq] at he
  | cons d ds ih =>
    by_cases h : d.doc_id = i
    · simp only [bumpFreq, if_pos h, Option.some.injEq] at he
      subst he
      have hne : d.doc_id ≠ j := by rw [h]; exact fun hc => hij hc.symm
      simp [findDoc, hne]
    · simp only [bumpFreq, if_neg h, Option.map_eq_some'] at he
      obtain ⟨r2, hr, rfl⟩ := he
      by_cases h2 : d.doc_id = j <;> simp [findDoc, h2, ih r2 hr]

theorem map_doc_id_bumpFreq (i : Int) (ds r : List DocNode)
    (he : bumpFreq i ds = some r) :
    r.map DocNode.doc_id = ds.map DocNode.doc_id := by
  induction ds generalizing r with
  | nil => simp [bumpFreq] at he
  | cons d ds ih =>
    by_cases h : d.doc_id = i
    · simp only [bumpFreq, if_pos h, Option.some.injEq] at he
      subst he
      simp
    · simp only [bumpFreq, if_neg h, Option.map_eq_some'] at he
      obtain ⟨r2, hr, rfl⟩ := he
      simp [ih r2 hr]

/-! ### Lemmas about recordOccurrenceAlloc with a successful allocation -/

theorem postFreq_record_self (ds : List DocNode) (i : Int) (nm : String) :
    postFreq (recordOccurrenceAlloc true ds i nm) i = postFreq ds i + 1 := by
  cases hb : bumpFreq i ds with
  | none =>
    have hd : findDoc i ds = none := (bumpFreq_eq_none i ds).mp hb
    simp [recordOccurrenceAlloc, hb, postFreq, findDoc, hd]
  | some r =>
    have hd := findDoc_bumpFreq_self i ds r hb
    cases hfd : findDoc i ds with
    | none =>
      exact absurd hb (by simp [(bumpFreq_eq_none i ds).mpr hfd])
    | some d =>
      simp [recordOccurrenceAlloc, hb, postFreq, hd, hfd]

theorem postFreq_record_other (ds : List DocNode) (i j : Int) (nm : String)
    (hij : j ≠ i) :
    postFreq (recordOccurrenceAlloc true ds i nm) j = postFreq ds j := by
  cases hb : bumpFreq i ds with
  | none =>
    have hne : ¬ i = j := fun hc => hij hc.symm
    simp [recordOccurrenceAlloc, hb, postFreq, findDoc, hne]
  | some r =>
    simp [recordOccurrenceAlloc, hb, postFreq, findDoc_bumpFreq_other i j ds r hb hij]

theorem nodup_record (ds : List DocNode) (i : Int) (nm : String)
    (hnd : (ds.map DocNode.doc_id).Nodup) :
    ((recordOccurrenceAlloc true ds i nm).map DocNode.doc_id).Nodup := by
  cases hb : bumpFreq i ds with
  | none =>
    have hd : i ∉ ds.map DocNode.doc_id :=
      (findDoc_eq_none_iff i ds).mp ((bumpFreq_eq_none i ds).mp hb)
    simp [recordOccurrenceAlloc, hb, hd, hnd]
  | some r =>
    simp [recordOccurrenceAlloc, hb, map_doc_id_bumpFreq i ds r hb, hnd]

/-! ### Effect of one InsertIndex call on the stored counts -/

theorem insertIndex_of_empty_norm (idx : Index) (raw : String) (i : Int) (nm : String)
    (hz : (ToLowerCase raw).length = 0) : InsertIndex idx raw i nm = idx := by
  simp [InsertIndex, InsertIndexAlloc, hz]

theorem freqOf_insert_self (idx : Index) (raw : String) (i : Int) (nm : String)
    (hw : ¬ (ToLowerCase raw).length = 0) :
    freqOf (InsertIndex idx raw i nm) (ToLowerCase raw) i =
      freqOf idx (ToLowerCase raw) i + 1 := by
  simp only [InsertIndex, InsertIndexAlloc, if_neg hw, if_pos]
  cases hu : updateFirstWord (ToLowerCase raw)
      (fun ds => recordOccurrenceAlloc true ds i nm)
      (idx (HashFunction (ToLowerCase raw))) with
  | some chain2 =>
    have hself := findNode_updateFirstWord_self _ _ _ _ hu
    cases hfn : findNode (ToLowerCase raw) (idx (HashFunction (ToLowerCase raw))) with
    | none =>
      rw [(updateFirstWord_eq_none _ _ _).mpr hfn] at hu
      exact absurd hu (by simp)
    | some n =>
      rw [hfn] at hself
      simp [freqOf, setBucket, hself, hfn, postFreq_record_self]
  | none =>
    have hfn := (updateFirstWord_eq_none _ _ _).mp hu
    simp [freqOf, setBucket, findNode, hfn, recordOccurrenceAlloc, bumpFreq, postFreq, findDoc]

theorem freqOf_insert_other (idx : Index) (raw : String) (i : Int) (nm : String)
    (w : String) (j : Int) (hne : w ≠ ToLowerCase raw ∨ j ≠ i) :
    freqOf (InsertIndex idx raw i nm) w j = freqOf idx w j := by
  by_cases hz : (ToLowerCase raw).length = 0
  · rw [insertIndex_of_empty_norm idx raw i nm hz]
  simp only [InsertIndex, InsertIndexAlloc, if_neg hz, if_pos]
  by_cases hww : w = ToLowerCase raw
  · have hj : j ≠ i := by
      rcases hne with hne | hne
      · exact absurd hww hne
      · exact hne
    rw [hww]
    cases hu : updateFirstWord (ToLowerCase raw) (fun ds => recordOccurrenceAlloc true ds i nm)
        (idx (HashFunction (ToLowerCase raw))) with
    | some chain2 =>
      have hself := findNode_updateFirstWord_self _ _ _ _ hu
      cases hfn : findNode (ToLowerCase raw) (idx (HashFunction (ToLowerCase raw))) with
      | none =>
        rw [(updateFirstWord_eq_none _ _ _).mpr hfn] at hu
        exact absurd hu (by simp)
      | some n =>
        rw [hfn] at hself
        simp [freqOf, setBucket, hself, hfn, postFreq_record_other _ _ _ _ hj]
    | none =>
      have hfn := (updateFirstWord_eq_none _ _ _).mp hu
      have hne2 : ¬ i = j := fun hc => hj hc.symm
      simp [freqOf, setBucket, findNode, hfn, recordOccurrenceAlloc, bumpFreq, postFreq,
        findDoc, hne2]
  · cases hu : updateFirstWord (ToLowerCase raw)
        (fun ds => recordOccurrenceAlloc true ds i nm)
        (idx (HashFunction (ToLowerCase raw))) with
    | some chain2 =>
      by_cases hb : HashFunction w = HashFunction (ToLowerCase raw)
      · have hother := findNode_updateFirstWord_other _ w _ _ _ hu hww
        simp [freqOf, setBucket, hb, hother]
      · simp [freqOf, setBucket, hb]
    | none =>
      by_cases hb : HashFunction w = HashFunction (ToLowerCase raw)
      · have hword : ¬ (ToLowerCase raw) = w := fun hc => hww hc.symm
        simp [freqOf, setBucket, hb, findNode, hword]
      · simp [freqOf, setBucket, hb]

/-! ### Effect of ingesting token streams, lines and whole sources -/

theorem freqOf_foldl_insert (ts : List String) (idx : Index) (i : Int) (nm : String)
    (w : String) (hw : ¬ w.length = 0) :
    freqOf (ts.foldl (fun a t => InsertIndex a t i nm) idx) w i =
      freqOf idx w i + (ts.map ToLowerCase).count w := by
  induction ts generalizing idx with
  | nil => simp
  | cons t ts ih =>
    simp only [List.foldl_cons, List.map_cons, List.count_cons]
    rw [ih (InsertIndex idx t i nm)]
    by_cases ht : ToLowerCase t = w
    · have hz : ¬ (ToLowerCase t).length = 0 := by rw [ht]; exact hw
      have h1 := freqOf_insert_self idx t i nm hz
      rw [ht] at h1
      rw [h1]
      simp [ht]
      omega
    · have hne : ¬ (ToLowerCase t = w) := ht
      rw [freqOf_insert_other idx t i nm w i (Or.inl (fun hc => ht hc.symm))]
      simp [hne]

theorem freqOf_foldl_insert_other (ts : List String) (idx : Index) (i j : Int)
    (nm : String) (w : String) (hj : j ≠ i) :
    freqOf (ts.foldl (fun a t => InsertIndex a t i nm) idx) w j = freqOf idx w j := by
  induction ts generalizing idx with
  | nil => simp
  | cons t ts ih =>
    simp only [List.foldl_cons]
    rw [ih (InsertIndex idx t i nm), freqOf_insert_other idx t i nm w j (Or.inr hj)]

theorem freqOf_load_some (lines : List String) (idx : Index) (i : Int) (nm : String)
    (w : String) (hw : ¬ w.length = 0) :
    freqOf (LoadFileAndIndex idx i nm (some lines)).1 w i =
      freqOf idx w i + countOcc lines w := by
  simp only [LoadFileAndIndex]
  induction lines generalizing idx with
  | nil => simp [countOcc, normTokens]
  | cons l ls ih =>
    simp only [List.foldl_cons]
    rw [ih (indexLine i nm idx l)]
    simp only [indexLine]
    rw [freqOf_foldl_insert (tokenize l) idx i nm w hw]
    simp only [countOcc, normTokens, List.flatMap_cons, List.map_append, List.count_append]
    omega

theorem freqOf_load_other (c : Option (List String)) (idx : Index) (i j : Int)
    (nm : String) (w : String) (hj : j ≠ i) :
    freqOf (LoadFileAndIndex idx i nm c).1 w j = freqOf idx w j := by
  cases c with
  | none => simp [LoadFileAndIndex]
  | some lines =>
    simp only [LoadFileAndIndex]
    induction lines generalizing idx with
    | nil => simp
    | cons l ls ih =>
      simp only [List.foldl_cons]
      rw [ih (indexLine i nm idx l)]
      simp only [indexLine]
      rw [freqOf_foldl_insert_other (tokenize l) idx i j nm w hj]

theorem ingestAll_cons (idx : Index) (s : Source) (ss : List Source) :
    ingestAll idx (s :: ss) =
      ingestAll (LoadFileAndIndex idx s.doc_id s.name s.content).1 ss := rfl

theorem ingestAll_append (idx : Index) (l1 l2 : List Source) :
    ingestAll idx (l1 ++ l2) = ingestAll (ingestAll idx l1) l2 := by
  simp [ingestAll, List.foldl_append]

theorem freqOf_ingestAll_not_mem (srcs : List Source) (idx : Index) (j : Int)
    (w : String) (hj : j ∉ srcs.map Source.doc_id) :
    freqOf (ingestAll idx srcs) w j = freqOf idx w j := by
  induction srcs generalizing idx with
  | nil => simp [ingestAll]
  | cons s ss ih =>
    simp only [List.map_cons, List.mem_cons] at hj
    push_neg at hj
    rw [ingestAll_cons, ih _ hj.2]
    exact freqOf_load_other s.content idx s.doc_id j s.name w hj.1

theorem freqOf_empty (w : String) (j : Int) : freqOf emptyIndex w j = 0 := rfl

/-! ### Structural invariant: no duplicate terms per chain, no duplicate
postings per term -/

theorem nodup_record_any (ok : Bool) (ds : List DocNode) (i : Int) (nm : String)
    (hnd : (ds.map DocNode.doc_id).Nodup) :
    ((recordOccurrenceAlloc ok ds i nm).map DocNode.doc_id).Nodup := by
  cases hb : bumpFreq i ds with
  | none =>
    have hd : i ∉ ds.map DocNode.doc_id :=
      (findDoc_eq_none_iff i ds).mp ((bumpFreq_eq_none i ds).mp hb)
    cases ok with
    | true => simp [recordOccurrenceAlloc, hb, hd, hnd]
    | false => simpa [recordOccurrenceAlloc, hb] using hnd
  | some r =>
    simp [recordOccurrenceAlloc, hb, map_doc_id_bumpFreq i ds r hb, hnd]

theorem indexInv_empty : IndexInv emptyIndex := by
  intro b
  simp [emptyIndex]

theorem indexInv_setBucket (idx : Index) (b : Nat) (ch : List WordNode)
    (hinv : IndexInv idx) (hw : (ch.map WordNode.word).Nodup)
    (hd : ∀ n ∈ ch, (n.doc_list.map DocNode.doc_id).Nodup) :
    IndexInv (setBucket idx b ch) := by
  intro b2
  by_cases hb : b2 = b
  · subst hb
    simp only [setBucket, if_true]
    exact ⟨hw, hd⟩
  · simp only [setBucket]
    rw [if_neg hb]
    exact hinv b2

theorem indexInv_insertAlloc (ok1 ok2 : Bool) (idx : Index) (raw : String) (i : Int)
    (nm : String) (hinv : IndexInv idx) :
    IndexInv (InsertIndexAlloc ok1 ok2 idx raw i nm) := by
  by_cases hz : (ToLowerCase raw).length = 0
  · simpa [InsertIndexAlloc, hz] using hinv
  simp only [InsertIndexAlloc, if_neg hz]
  cases hu : updateFirstWord (ToLowerCase raw)
      (fun ds => recordOccurrenceAlloc ok2 ds i nm)
      (idx (HashFunction (ToLowerCase raw))) with
  | some chain2 =>
    refine indexInv_setBucket idx _ chain2 hinv ?_ ?_
    · rw [map_word_updateFirstWord _ _ _ _ hu]
      exact (hinv _).1
    · exact doc_list_pred_updateFirstWord _ _ _ _ _ hu (hinv _).2
        (fun ds hds => nodup_record_any ok2 ds i nm hds)
  | none =>
    have hnotin : ToLowerCase raw ∉ (idx (HashFunction (ToLowerCase raw))).map WordNode.word :=
      (findNode_eq_none_iff _ _).mp ((updateFirstWord_eq_none _ _ _).mp hu)
    cases ok1 with
    | false => exact hinv
    | true =>
      show IndexInv (setBucket idx (HashFunction (ToLowerCase raw))
        ({ word := ToLowerCase raw, doc_list := recordOccurrenceAlloc ok2 [] i nm } ::
          idx (HashFunction (ToLowerCase raw))))
      refine indexInv_setBucket idx _ _ hinv ?_ ?_
      · simp only [List.map_cons, List.nodup_cons]
        exact ⟨hnotin, (hinv _).1⟩
      · intro n hn
        rcases List.mem_cons.mp hn with hn | hn
        · rw [hn]
          exact nodup_record_any ok2 [] i nm (by simp)
        · exact (hinv _).2 n hn

theorem indexInv_foldl_insert (ops : List (String × Int × String)) (idx : Index)
    (hinv : IndexInv idx) :
    IndexInv (ops.foldl (fun a op => InsertIndex a op.1 op.2.1 op.2.2) idx) := by
  induction ops generalizing idx with
  | nil => exact hinv
  | cons op ops ih =>
    exact ih _ (indexInv_insertAlloc true true idx op.1 op.2.1 op.2.2 hinv)

/-! ### Which words can appear in the table -/

theorem findNode_eq_some (w : String) (ch : List WordNode) (n : WordNode)
    (he : findNode w ch = some n) : n ∈ ch ∧ n.word = w := by
  induction ch with
  | nil => simp [findNode] at he
  | cons a as ih =>
    by_cases h : a.word = w
    · simp only [findNode, if_pos h, Option.some.injEq] at he
      rw [← he]
      exact ⟨List.mem_cons_self a as, h⟩
    · simp only [findNode, if_neg h] at he
      obtain ⟨h1, h2⟩ := ih he
      exact ⟨List.mem_cons_of_mem a h1, h2⟩

theorem mem_updateFirstWord (w : String) (f : List DocNode → List DocNode)
    (ch ch2 : List WordNode) (he : updateFirstWord w f ch = some ch2) :
    ∀ n ∈ ch2, n ∈ ch ∨ n.word = w := by
  induction ch generalizing ch2 with
  | nil => simp [updateFirstWord] at he
  | cons a as ih =>
    by_cases h : a.word = w
    · simp only [updateFirstWord, if_pos h, Option.some.injEq] at he
      subst he
      intro m hm
      rcases List.mem_cons.mp hm with hm | hm
      · right
        rw [hm]
        exact h
      · left
        exact List.mem_cons_of_mem a hm
    · simp only [updateFirstWord, if_neg h, Option.map_eq_some'] at he
      obtain ⟨r, hr, rfl⟩ := he
      intro m hm
      rcases List.mem_cons.mp hm with hm | hm
      · left
        rw [hm]
        exact List.mem_cons_self a as
      · rcases ih r hr m hm with hh | hh
        · left
          exact List.mem_cons_of_mem a hh
        · right
          exact hh

theorem mem_insert_bucket (idx : Index) (raw : String) (i : Int) (nm : String)
    (b : Nat) (n : WordNode) (hn : n ∈ InsertIndex idx raw i nm b) :
    n ∈ idx b ∨ n.word = ToLowerCase raw := by
  by_cases hz : (ToLowerCase raw).length = 0
  · rw [insertIndex_of_empty_norm idx raw i nm hz] at hn
    exact Or.inl hn
  simp only [InsertIndex, InsertIndexAlloc, if_neg hz, if_pos] at hn
  cases hu : updateFirstWord (ToLowerCase raw)
      (fun ds => recordOccurrenceAlloc true ds i nm)
      (idx (HashFunction (ToLowerCase raw))) with
  | some chain2 =>
    rw [hu] at hn
    by_cases hb : b = HashFunction (ToLowerCase raw)
    · rw [hb] at hn
      simp [setBucket] at hn
      rcases mem_updateFirstWord _ _ _ _ hu n hn with hh | hh
      · rw [hb]
        exact Or.inl hh
      · exact Or.inr hh
    · simp only [setBucket, if_neg hb] at hn
      exact Or.inl hn
  | none =>
    rw [hu] at hn
    by_cases hb : b = HashFunction (ToLowerCase raw)
    · rw [hb] at hn
      simp [setBucket] at hn
      rcases hn with hh | hh
      · right
        rw [hh]
      · rw [hb]
        exact Or.inl hh
    · simp only [setBucket, if_neg hb] at hn
      exact Or.inl hn

theorem mem_foldl_insert_bucket (ts : List String) (idx : Index) (i : Int)
    (nm : String) (b : Nat) (n : WordNode)
    (hn : n ∈ (ts.foldl (fun a t => InsertIndex a t i nm) idx) b) :
    n ∈ idx b ∨ n.word ∈ ts.map ToLowerCase := by
  induction ts generalizing idx with
  | nil => exact Or.inl hn
  | cons t ts ih =>
    simp only [List.foldl_cons] at hn
    rcases ih (InsertIndex idx t i nm) hn with hh | hh
    · rcases mem_insert_bucket idx t i nm b n hh with h2 | h2
      · exact Or.inl h2
      · right
        rw [h2]
        exact List.mem_cons_self _ _
    · right
      exact List.mem_cons_of_mem _ hh

theorem mem_load_bucket (c : Option (List String)) (idx : Index) (i : Int)
    (nm : String) (b : Nat) (n : WordNode)
    (hn : n ∈ (LoadFileAndIndex idx i nm c).1 b) :
    n ∈ idx b ∨ n.word ∈ (match c with | none => [] | some lines => normTokens lines) := by
  cases c with
  | none => exact Or.inl hn
  | some lines =>
    simp only [LoadFileAndIndex] at hn
    induction lines generalizing idx with
    | nil => exact Or.inl hn
    | cons l ls ih =>
      simp only [List.foldl_cons] at hn
      rcases ih (indexLine i nm idx l) hn with hh | hh
      · simp only [indexLine] at hh
        rcases mem_foldl_insert_bucket (tokenize l) idx i nm b n hh with h2 | h2
        · exact Or.inl h2
        · right
          simp only [normTokens, List.flatMap_cons, List.map_append]
          exact List.mem_append_left _ h2
      · right
        simp only [normTokens, List.flatMap_cons, List.map_append] at hh ⊢
        exact List.mem_append_right _ hh

theorem mem_ingestAll_bucket (srcs : List Source) (idx : Index) (b : Nat)
    (n : WordNode) (hn : n ∈ (ingestAll idx srcs) b) :
    n ∈ idx b ∨ n.word ∈ corpusNormTokens srcs := by
  induction srcs generalizing idx with
  | nil => exact Or.inl hn
  | cons s ss ih =>
    rw [ingestAll_cons] at hn
    rcases ih _ hn with hh | hh
    · rcases mem_load_bucket s.content idx s.doc_id s.name b n hh with h2 | h2
      · exact Or.inl h2
      · right
        simp only [corpusNormTokens, List.flatMap_cons]
        exact List.mem_append_left _ h2
    · right
      simp only [corpusNormTokens, List.flatMap_cons]
      exact List.mem_append_right _ hh


/-! ### The BKDR loop computes a polynomial rolling hash -/

theorem polyRollingHash_lt (cs : List Char) : polyRollingHash cs < UINT_MOD := by
  cases cs with
  | nil => decide
  | cons c cs => exact Nat.mod_lt _ (by decide)

theorem bkdr_horner (cs : List Char) : ∀ (h : Nat), h < UINT_MOD →
    cs.foldl (fun a c => (a * 131 + c.toNat) % UINT_MOD) h =
      (h * 131 ^ cs.length + polyRollingHash cs) % UINT_MOD := by
  induction cs with
  | nil =>
    intro h hh
    simp [polyRollingHash, Nat.mod_eq_of_lt hh]
  | cons c cs ih =>
    intro h hh
    simp only [List.foldl_cons, polyRollingHash, List.length_cons]
    rw [ih _ (Nat.mod_lt _ (by decide))]
    have e1 : ((h * 131 + c.toNat) % UINT_MOD) * 131 ^ cs.length + polyRollingHash cs ≡
        (h * 131 + c.toNat) * 131 ^ cs.length + polyRollingHash cs [MOD UINT_MOD] :=
      Nat.ModEq.add_right _ ((Nat.mod_modEq _ _).mul_right _)
    have e2 : h * 131 ^ (cs.length + 1) +
          (c.toNat * 131 ^ cs.length + polyRollingHash cs) % UINT_MOD ≡
        h * 131 ^ (cs.length + 1) + (c.toNat * 131 ^ cs.length + polyRollingHash cs)
          [MOD UINT_MOD] :=
      Nat.ModEq.add_left _ (Nat.mod_modEq _ _)
    have e3 : (h * 131 + c.toNat) * 131 ^ cs.length + polyRollingHash cs =
        h * 131 ^ (cs.length + 1) + (c.toNat * 131 ^ cs.length + polyRollingHash cs) := by
      ring
    exact (e1.trans (e3 ▸ Nat.ModEq.refl _)).trans e2.symm

/-! ### Claim theorems -/

/-- C1: after ingesting any corpus whose source ids are pairwise distinct,
the occurrence count stored for a term under a source's id equals the
number of that source's tokens whose normalized form is the term; and
Scenario A holds concretely: after ingesting source 1 ("doc.txt") with
content "the cat sat on the mat", searching "the" finds the single posting
(doc.txt, 2), "cat" finds (doc.txt, 1), and "dog" is not found. -/
theorem c1_count_correctness :
    (∀ (srcs : List Source) (s : Source) (lines : List String) (w : String),
        (srcs.map Source.doc_id).Nodup → s ∈ srcs → s.content = some lines →
        ¬ w.length = 0 →
        freqOf (ingestAll emptyIndex srcs) w s.doc_id = countOcc lines w) ∧
    (Search ((LoadFileAndIndex emptyIndex 1 ("doc.txt") (some ["the cat sat on the mat"])).1)
        ("the") =
        SearchResult.Found [{ doc_id := 1, doc_name := ("doc.txt"), frequency := 2 }] ∧
      Search ((LoadFileAndIndex emptyIndex 1 ("doc.txt") (some ["the cat sat on the mat"])).1)
        ("cat") =
        SearchResult.Found [{ doc_id := 1, doc_name := ("doc.txt"), frequency := 1 }] ∧
      Search ((LoadFileAndIndex emptyIndex 1 ("doc.txt") (some ["the cat sat on the mat"])).1)
        ("dog") =
        SearchResult.NotFound) := by
  constructor
  · intro srcs s lines w hnd hmem hc hw
    obtain ⟨pre, post, rfl⟩ := List.append_of_mem hmem
    simp only [List.map_append, List.map_cons] at hnd
    rcases List.nodup_append.mp hnd with ⟨hp, hcons, hdisj⟩
    rcases List.nodup_cons.mp hcons with ⟨h1, _⟩
    have h2 : s.doc_id ∉ pre.map Source.doc_id :=
      fun hm => hdisj hm (List.mem_cons_self _ _)
    rw [ingestAll_append, ingestAll_cons, freqOf_ingestAll_not_mem post _ _ _ h1, hc,
      freqOf_load_some lines _ s.doc_id s.name w hw,
      freqOf_ingestAll_not_mem pre _ _ _ h2, freqOf_empty]
    exact Nat.zero_add _
  · exact ⟨by decide, by decide, by decide⟩

/-- Witness for C1: ingesting the Scenario A corpus, the stored count for
"the" under source 1 equals the token count of the content. -/
theorem c1_count_correctness_witness :
    freqOf (ingestAll emptyIndex [⟨1, ("doc.txt"), some ["the cat sat on the mat"]⟩])
        ("the") 1 =
      countOcc ["the cat sat on the mat"] ("the") :=
  c1_count_correctness.1 [⟨1, ("doc.txt"), some ["the cat sat on the mat"]⟩]
    ⟨1, ("doc.txt"), some ["the cat sat on the mat"]⟩
    ["the cat sat on the mat"] ("the") (by decide) (by decide) rfl (by decide)

/-- C2: every InsertIndex call (with any allocation outcomes) preserves the
table invariant — no two chain entries of a bucket hold the same term
string, and no term's posting list holds two postings for the same doc
id — and hence every sequence of insertions from the empty table satisfies
it. -/
theorem c2_no_duplicates :
    (∀ (okWord okDoc : Bool) (idx : Index) (raw : String) (i : Int) (nm : String),
        IndexInv idx → IndexInv (InsertIndexAlloc okWord okDoc idx raw i nm)) ∧
    (∀ ops : List (String × Int × String),
        IndexInv (ops.foldl (fun a op => InsertIndex a op.1 op.2.1 op.2.2) emptyIndex)) :=
  ⟨fun ok1 ok2 idx raw i nm h => indexInv_insertAlloc ok1 ok2 idx raw i nm h,
    fun ops => indexInv_foldl_insert ops emptyIndex indexInv_empty⟩

/-- Witness for C2 at a concrete insertion into the empty table. -/
theorem c2_no_duplicates_witness :
    IndexInv (InsertIndexAlloc true true emptyIndex ("cat") 1 ("doc.txt")) :=
  c2_no_duplicates.1 true true emptyIndex ("cat") 1 ("doc.txt") indexInv_empty

/-- C3: search results are invariant under the case of the query — any two
queries with the same case-folded form get identical results, because
Search lowercases the query with the same ToLowerCase used at build time
before lookup. -/
theorem c3_case_fold_equivalence :
    ∀ (idx : Index) (q1 q2 : String), ToLowerCase q1 = ToLowerCase q2 →
      Search idx q1 = Search idx q2 := by
  intro idx q1 q2 h
  simp only [Search, h]

/-- Witness for C3: "Hello" and "hello" get the same result on a concrete
index built from content containing "Hello". -/
theorem c3_case_fold_equivalence_witness :
    Search ((LoadFileAndIndex emptyIndex 1 ("greet.txt") (some ["Hello world"])).1) ("Hello") =
      Search ((LoadFileAndIndex emptyIndex 1 ("greet.txt") (some ["Hello world"])).1) ("hello") :=
  c3_case_fold_equivalence ((LoadFileAndIndex emptyIndex 1 ("greet.txt")
    (some ["Hello world"])).1) ("Hello") ("hello") (by decide)

/-- C4 counter-evidence (the code, not the claim, is wrong here): when a
malloc inside InsertIndex fails, the C function — whose return type is
void, so it has no error channel at all — silently drops the insert.
With the WordNode allocation failing, the table is left exactly as it was
and the word stays unfindable; with the DocNode allocation failing on a
new source of an existing word, the occurrence is lost with no signal
(searching still shows only the old posting). -/
theorem c4_alloc_failure_silent :
    (∀ b, InsertIndexAlloc false true emptyIndex ("cat") 1 ("doc.txt") b = emptyIndex b) ∧
    Search (InsertIndexAlloc false true emptyIndex ("cat") 1 ("doc.txt")) ("cat") =
      SearchResult.NotFound ∧
    Search (InsertIndexAlloc true false (InsertIndex emptyIndex ("cat") 1 ("doc.txt"))
        ("cat") 2 ("extra.txt")) ("cat") =
      SearchResult.Found [{ doc_id := 1, doc_name := ("doc.txt"), frequency := 1 }] :=
  ⟨fun b => rfl, by decide, by decide⟩

/-- C5: a query gets NotFound on the empty table; a query whose normalized
form was never produced by any ingested source gets NotFound; and Found is
returned only when the normalized term is actually present in the bucket
chain the term hashes to. -/
theorem c5_notfound_complete :
    (∀ q : String, Search emptyIndex q = SearchResult.NotFound) ∧
    (∀ (srcs : List Source) (q : String),
        ToLowerCase q ∉ corpusNormTokens srcs →
        Search (ingestAll emptyIndex srcs) q = SearchResult.NotFound) ∧
    (∀ (idx : Index) (q : String) (ps : List DocNode),
        Search idx q = SearchResult.Found ps →
        ∃ n ∈ idx (HashFunction (ToLowerCase q)), n.word = ToLowerCase q ∧ n.doc_list = ps) := by
  refine ⟨fun q => rfl, ?_, ?_⟩
  · intro srcs q hq
    cases hfn : findNode (ToLowerCase q)
        ((ingestAll emptyIndex srcs) (HashFunction (ToLowerCase q))) with
    | none => simp [Search, hfn]
    | some n =>
      obtain ⟨hmem, hword⟩ := findNode_eq_some _ _ _ hfn
      rcases mem_ingestAll_bucket srcs emptyIndex _ n hmem with hh | hh
      · exact absurd hh (by simp [emptyIndex])
      · rw [hword] at hh
        exact absurd hh hq
  · intro idx q ps hs
    cases hfn : findNode (ToLowerCase q) (idx (HashFunction (ToLowerCase q))) with
    | none => simp [Search, hfn] at hs
    | some n =>
      obtain ⟨hmem, hword⟩ := findNode_eq_some _ _ _ hfn
      have hps : n.doc_list = ps := by
        simp [Search, hfn] at hs
        exact hs
      exact ⟨n, hmem, hword, hps⟩

/-- Witness for C5: "dog" was never ingested in the Scenario A corpus, so
searching it returns NotFound. -/
theorem c5_notfound_complete_witness :
    Search (ingestAll emptyIndex [⟨1, ("doc.txt"), some ["the cat sat on the mat"]⟩]) ("dog") =
      SearchResult.NotFound :=
  c5_notfound_complete.2.1 [⟨1, ("doc.txt"), some ["the cat sat on the mat"]⟩] ("dog")
    (by decide)

/-- C6: ingesting the same content twice under the same source id adds the
per-ingestion counts (no deduplication); concretely, ingesting "a a a"
twice for source 1 makes searching "a" return the posting with count 6. -/
theorem c6_reingest_accumulates :
    (∀ (idx : Index) (lines : List String) (i : Int) (nm : String) (w : String),
        ¬ w.length = 0 →
        freqOf (LoadFileAndIndex (LoadFileAndIndex idx i nm (some lines)).1
            i nm (some lines)).1 w i =
          freqOf idx w i + countOcc lines w + countOcc lines w) ∧
    Search (LoadFileAndIndex (LoadFileAndIndex emptyIndex 1 ("src.txt") (some ["a a a"])).1
        1 ("src.txt") (some ["a a a"])).1 ("a") =
      SearchResult.Found [{ doc_id := 1, doc_name := ("src.txt"), frequency := 6 }] := by
  constructor
  · intro idx lines i nm w hw
    rw [freqOf_load_some lines _ i nm w hw, freqOf_load_some lines idx i nm w hw]
  · decide

/-- Witness for C6: the double ingestion of "a a a" for source 1 stores
count 3 + 3 for term "a". -/
theorem c6_reingest_accumulates_witness :
    freqOf (LoadFileAndIndex (LoadFileAndIndex emptyIndex 1 ("src.txt") (some ["a a a"])).1
        1 ("src.txt") (some ["a a a"])).1 ("a") 1 =
      freqOf emptyIndex ("a") 1 + countOcc ["a a a"] ("a") + countOcc ["a a a"] ("a") :=
  c6_reingest_accumulates.1 emptyIndex ["a a a"] 1 ("src.txt") ("a") (by decide)

/-- C7: an unavailable source makes LoadFileAndIndex report the file and
return with the table untouched, and the ingestion loop of main produces
the same table as if the unavailable source were absent — every other
source is still ingested. -/
theorem c7_source_unavailable_nonfatal :
    (∀ (idx : Index) (i : Int) (nm : String),
        LoadFileAndIndex idx i nm none = (idx, [nm])) ∧
    (∀ (idx : Index) (pre : List Source) (s : Source) (post : List Source),
        s.content = none →
        ingestAll idx (pre ++ s :: post) = ingestAll idx (pre ++ post)) := by
  constructor
  · intro idx i nm
    rfl
  · intro idx pre s post hc
    rw [ingestAll_append, ingestAll_append, ingestAll_cons, hc]
    rfl

/-- Witness for C7: a three-source list whose middle source is unavailable
yields the same index as the two-source list without it. -/
theorem c7_source_unavailable_nonfatal_witness :
    ingestAll emptyIndex [⟨1, ("a.txt"), some ["alpha"]⟩, ⟨2, ("missing.txt"), none⟩,
        ⟨3, ("b.txt"), some ["beta"]⟩] =
      ingestAll emptyIndex [⟨1, ("a.txt"), some ["alpha"]⟩, ⟨3, ("b.txt"), some ["beta"]⟩] :=
  c7_source_unavailable_nonfatal.2 emptyIndex [⟨1, ("a.txt"), some ["alpha"]⟩]
    ⟨2, ("missing.txt"), none⟩ [⟨3, ("b.txt"), some ["beta"]⟩] rfl

/-- C8: the hash of any string is the base-131 polynomial of its characters
in unsigned 32-bit arithmetic, reduced modulo the fixed capacity 1007, and
is therefore always a valid bucket index below TABLE_SIZE.  (Determinism
is inherent: the embedding is a pure function of the string.) -/
theorem c8_hash_polynomial_bounded :
    ∀ s : String,
      HashFunction s = polyRollingHash s.data % TABLE_SIZE ∧
        HashFunction s < TABLE_SIZE := by
  intro s
  constructor
  · unfold HashFunction
    rw [bkdr_horner s.data 0 (by decide)]
    simp [Nat.mod_eq_of_lt (polyRollingHash_lt s.data)]
  · exact Nat.mod_lt _ (by decide)

/-- C9 counter-evidence (the code, not the claim, is wrong here): the C
ToLowerCase neither rejects nor truncates: on a 50-character token — which
the tokenizer really produces from a legal line shorter than
MAX_LINE_LEN — it writes buffer index 50 (the terminating NUL), outside
`char word[MAX_WORD_LEN]` whose valid indices are 0..49, and its output
still has full length 50. -/
theorem c9_buffer_overflow :
    MAX_WORD_LEN ∈ toLowerWriteIndices (String.mk (List.replicate MAX_WORD_LEN ('a'))) ∧
    (ToLowerCase (String.mk (List.replicate MAX_WORD_LEN ('a')))).length = MAX_WORD_LEN ∧
    tokenize (String.mk (List.replicate MAX_WORD_LEN ('a'))) =
      [String.mk (List.replicate MAX_WORD_LEN ('a'))] ∧
    (String.mk (List.replicate MAX_WORD_LEN ('a'))).length < MAX_LINE_LEN := by
  decide

/-- C10: an InsertIndex call with non-empty normalized form w changes
nothing outside the bucket w hashes to, and in every bucket the word nodes
whose term differs from w — with their entire posting lists — are exactly
what they were before. -/
theorem c10_insert_frame :
    ∀ (idx : Index) (raw : String) (i : Int) (nm : String),
      ¬ (ToLowerCase raw).length = 0 →
      (∀ b, b ≠ HashFunction (ToLowerCase raw) → InsertIndex idx raw i nm b = idx b) ∧
      (∀ b, (InsertIndex idx raw i nm b).filter (fun n => ! decide (n.word = ToLowerCase raw)) =
        (idx b).filter (fun n => ! decide (n.word = ToLowerCase raw))) := by
  intro idx raw i nm hz
  simp only [InsertIndex, InsertIndexAlloc, if_neg hz]
  cases hu : updateFirstWord (ToLowerCase raw)
      (fun ds => recordOccurrenceAlloc true ds i nm)
      (idx (HashFunction (ToLowerCase raw))) with
  | some chain2 =>
    constructor
    · intro b hb
      simp only [setBucket]
      rw [if_neg hb]
    · intro b
      by_cases hb : b = HashFunction (ToLowerCase raw)
      · rw [hb]
        simp only [setBucket, if_true]
        exact filter_updateFirstWord _ _ _ _ hu
      · simp only [setBucket]
        rw [if_neg hb]
  | none =>
    constructor
    · intro b hb
      simp only [if_true, setBucket]
      rw [if_neg hb]
    · intro b
      by_cases hb : b = HashFunction (ToLowerCase raw)
      · rw [hb]
        simp only [if_true, setBucket, if_true]
        simp [List.filter_cons]
      · simp only [if_true, setBucket]
        rw [if_neg hb]

/-- Witness for C10: inserting "Dog" into the empty table leaves a bucket
other than its hash bucket unchanged, and filtering out "dog" from bucket 0
gives exactly what bucket 0 held before. -/
theorem c10_insert_frame_witness :
    (InsertIndex emptyIndex ("Dog") 1 ("doc.txt"))
        (HashFunction (ToLowerCase ("Dog")) + 1) =
      emptyIndex (HashFunction (ToLowerCase ("Dog")) + 1) ∧
    ((InsertIndex emptyIndex ("Dog") 1 ("doc.txt")) 0).filter
        (fun n => ! decide (n.word = ToLowerCase ("Dog"))) =
      (emptyIndex 0).filter (fun n => ! decide (n.word = ToLowerCase ("Dog"))) :=
  ⟨(c10_insert_frame emptyIndex ("Dog") 1 ("doc.txt") (by decide)).1 _ (by decide),
    (c10_insert_frame emptyIndex ("Dog") 1 ("doc.txt") (by decide)).2 0⟩
